import Mathlib

/-!
Verification development for the ERCA gridded time-series aggregator.

The notebook code analysed here computes, over a gridded (time, latitude,
longitude) temperature field:
  * temporal climatological means (`da.mean('time')`,
    `groupby('time.season').mean('time')`, `resample(time='Y').mean('time')`),
  * an area-weighted spatial average (`u.spatial_average`),
  * per-cell linear trends (`trend` wrapping `scipy.stats.linregress`
    through `xr.apply_ufunc` with the time axis as core dimension),
  * a byte-size pretty-printer (`convert_size`) and a longitude wrap-around
    mask (`(lon > 360+lonmin) | (lon < lonmax)`).

Machine floats are idealised as exact rationals/reals; the missing-value
marker (NaN) is modelled with `Option`, `none` standing for NaN.
-/

namespace ERCA

/-- GridField: a dense array of samples indexed by (time, latitude, longitude).
`times` is the ordered time axis (an integer serial: a month or a year index),
`lats`/`lons` the spatial axes, and `value` the sample lookup; `none` is the
missing marker (NaN). -/
structure GridField (α : Type) where
  times : List ℤ
  lats : List ℚ
  lons : List ℚ
  value : ℤ → ℚ → ℚ → Option α

/-- Series of samples of one (lat, lon) cell along the whole time axis. -/
def seriesAt {α : Type} (f : GridField α) (la lo : ℚ) : List (Option α) :=
  f.times.map (fun t => f.value t la lo)

/-- Streaming (sum, count) accumulator over the non-missing entries of a
series; mirrors the skipna sum/count pair that `mean(..., skipna=True)`
maintains: missing entries contribute to neither component. -/
def nanacc {α : Type} [Field α] (l : List (Option α)) : α × ℕ :=
  l.foldr (fun o p => match o with | none => p | some v => (v + p.1, p.2 + 1)) (0, 0)

/-- Mean with NaN skipping, as `mean('time')` computes it with its default
`skipna=True`: sum of valid entries divided by their count, `none` (NaN)
when no valid entry exists. -/
def nanmean {α : Type} [Field α] (l : List (Option α)) : Option α :=
  if (nanacc l).2 = 0 then none else some ((nanacc l).1 / ((nanacc l).2 : α))

/-- Overall climatology `clim = da.mean('time')` at one cell. -/
def clim {α : Type} [Field α] (f : GridField α) (la lo : ℚ) : Option α :=
  nanmean (seriesAt f la lo)

/-- Time steps of `f` falling in the group `k` of the grouping key `key`;
this is the membership test `groupby` performs on the time axis. -/
def groupTimes {α κ : Type} [DecidableEq κ] (key : ℤ → κ) (f : GridField α) (k : κ) :
    List ℤ :=
  f.times.filter (fun t => decide (key t = k))

/-- Grouped climatology `da.groupby(key).mean('time')` at one cell: the
skipna mean of the samples of the group. -/
def groupbyMean {α κ : Type} [Field α] [DecidableEq κ] (key : ℤ → κ) (f : GridField α)
    (k : κ) (la lo : ℚ) : Option α :=
  nanmean ((groupTimes key f k).map (fun t => f.value t la lo))

/-- Calendar seasons, the four group labels produced by `time.season`. -/
inductive Season : Type
  | DJF : Season
  | MAM : Season
  | JJA : Season
  | SON : Season
deriving DecidableEq

/-- Season of a calendar month (1 = January .. 12 = December), as the
`time.season` accessor assigns it: Dec/Jan/Feb to DJF, Mar/Apr/May to MAM,
Jun/Jul/Aug to JJA, Sep/Oct/Nov to SON. -/
def seasonOfMonth (m : ℤ) : Season :=
  if m = 12 ∨ m ≤ 2 then Season.DJF
  else if m ≤ 5 then Season.MAM
  else if m ≤ 8 then Season.JJA
  else Season.SON

/-- Calendar month (1..12) of a monthly time serial; serial 0 is January. -/
def monthOf (t : ℤ) : ℤ := t % 12 + 1

/-- Grouping key of `groupby('time.season')` on a monthly time axis. -/
def seasonKey (t : ℤ) : Season := seasonOfMonth (monthOf t)

/-- Spatial cells of a field, the product of its latitude and longitude axes. -/
def cellsOf {α : Type} (f : GridField α) : List (ℚ × ℚ) :=
  f.lats.flatMap (fun la => f.lons.map (fun lo => (la, lo)))

/-- Cells carrying a valid (non-missing) sample at time `t`, paired as
(latitude, value); missing cells are dropped. -/
def includedCells {α : Type} (f : GridField α) (t : ℤ) : List (ℚ × α) :=
  (cellsOf f).filterMap (fun c => (f.value t c.1 c.2).map (fun v => (c.1, v)))

/-- Total weight of the included cells at time `t` under the per-latitude
weight function `w`. -/
def weightSum {α : Type} [Field α] (w : ℚ → α) (f : GridField α) (t : ℤ) : α :=
  ((includedCells f t).map (fun c => w c.1)).sum

/-- Modelled from the spec: `u.spatial_average` is defined in the
repository's `utils` folder, which is not among the provided source files;
only its call sites are. Following §4.2 of the spec, the spatial axes are
reduced to one scalar per time step by a weighted average with per-latitude
weights (the spec prescribes weights proportional to `cos(latitude)`; the
weight function is kept as a parameter `w` here because the spec claims its
normalization properties for any latitude weighting), normalized over the
non-missing cells of that time step: missing cells are excluded from both
the numerator and the weight-sum denominator. A time step whose included
weight mass is zero has no defined average and yields the missing marker. -/
def spatial_average {α : Type} [Field α] [DecidableEq α] (w : ℚ → α) (f : GridField α)
    (t : ℤ) : Option α :=
  if weightSum w f t = 0 then none
  else some (((includedCells f t).map (fun c => w c.1 * c.2)).sum / weightSum w f t)

/-! ### Per-cell linear trend estimator

`trend(x, y, dim)` applies `scipy.stats.linregress` over the core dimension
`dim` through `xr.apply_ufunc(..., vectorize=True)`: for every (lat, lon)
cell, `linregress` is called on the shared covariate `x` and that cell's
series.  The scipy computations below follow the library source: means and
the bias-1 covariance entries `ssxm, ssxym, ssym`; the guarded and clamped
correlation `r`; the `n == 2` special case for the p-value and standard
error; otherwise the two-sided p-value `2 * t.sf(|t|, n-2)` with
`t = r*sqrt(df/((1-r+TINY)*(1+r+TINY)))`, `TINY = 1e-20`; and the slope
standard error `sqrt((1-r^2)*ssym/ssxm/df)`. -/

noncomputable section

/-- Mean of a list of samples (`np.mean`). -/
def mean (l : List ℝ) : ℝ := l.sum / l.length

/-- Elementwise products of deviations from the means, the summands of the
bias-1 covariance `np.cov(x, y, bias=1)`. -/
def demean2 (xs ys : List ℝ) : List ℝ :=
  List.zipWith (fun a b => (a - mean xs) * (b - mean ys)) xs ys

/-- Bias-1 covariance entry of `np.cov(x, y, bias=1)`: the sum of deviation
products divided by the sample count `n`. -/
def covn (xs ys : List ℝ) : ℝ := (demean2 xs ys).sum / xs.length

/-- Constant `TINY = 1.0e-20` from `scipy.stats.linregress`, guarding the
t-statistic denominator against a perfect fit. -/
def TINY : ℝ := 1 / 10 ^ 20

/-- Unnormalized density kernel of Student's t distribution with `ν` degrees
of freedom, `(1 + t²/ν) ^ (-(ν+1)/2)`. -/
def tKer (ν : ℝ) (t : ℝ) : ℝ := (1 + t ^ 2 / ν) ^ (-((ν + 1) / 2))

/-- Survival function of Student's t distribution with `ν` degrees of
freedom (`scipy.stats.distributions.t.sf`), expressed as the normalized
upper tail mass of the density kernel. -/
def tSF (ν : ℝ) (x : ℝ) : ℝ := (∫ t in Set.Ioi x, tKer ν t) / ∫ t : ℝ, tKer ν t

/-- Raw correlation `r = ssxym / sqrt(ssxm * ssym)` with the scipy guard
returning `0` when either variance vanishes. -/
def r0Of (xs ys : List ℝ) : ℝ :=
  if covn xs xs = 0 ∨ covn ys ys = 0 then 0
  else covn xs ys / Real.sqrt (covn xs xs * covn ys ys)

/-- Clamp of the correlation to `[-1, 1]` (scipy: "test for numerical error
propagation"). -/
def clampR (r : ℝ) : ℝ := if 1 < r then 1 else if r < -1 then -1 else r

/-- Correlation coefficient as `linregress` returns it. -/
def rOf (xs ys : List ℝ) : ℝ := clampR (r0Of xs ys)

/-- Degrees of freedom `df = n - 2`. -/
def dfOf (xs : List ℝ) : ℝ := (xs.length : ℝ) - 2

/-- Slope `ssxym / ssxm` of the least-squares fit. -/
def slopeOf (xs ys : List ℝ) : ℝ := covn xs ys / covn xs xs

/-- Intercept `ymean - slope * xmean` of the least-squares fit. -/
def interceptOf (xs ys : List ℝ) : ℝ := mean ys - slopeOf xs ys * mean xs

/-- The t statistic `r * sqrt(df / ((1 - r + TINY) * (1 + r + TINY)))`. -/
def tOf (xs ys : List ℝ) : ℝ :=
  rOf xs ys * Real.sqrt (dfOf xs / ((1 - rOf xs ys + TINY) * (1 + rOf xs ys + TINY)))

/-- Two-sided p-value for the null hypothesis of zero slope: the `n == 2`
special case of `linregress` (`1.0` when the two y values coincide, else
`0.0`), otherwise `2 * t.sf(|t|, df)`. -/
def pvalueOf (xs ys : List ℝ) : ℝ :=
  if xs.length = 2 then (if ys.get? 0 = ys.get? 1 then 1 else 0)
  else 2 * tSF (dfOf xs) |tOf xs ys|

/-- Standard error of the slope, `sqrt((1 - r^2) * ssym / ssxm / df)`; the
`n == 2` case of `linregress` sets it to `0.0`. -/
def stderrOf (xs ys : List ℝ) : ℝ :=
  if xs.length = 2 then 0
  else Real.sqrt ((1 - rOf xs ys ^ 2) * covn ys ys / covn xs xs / dfOf xs)

/-- Result record of `scipy.stats.linregress`: the exactly five quantities
it yields when unpacked as a 5-tuple. -/
structure LinregressResult where
  slope : ℝ
  intercept : ℝ
  rvalue : ℝ
  pvalue : ℝ
  stderr : ℝ

/-- The `scipy.stats.linregress` computation on a series with no missing
values. -/
def linregress (xs ys : List ℝ) : LinregressResult :=
  { slope := slopeOf xs ys
    intercept := interceptOf xs ys
    rvalue := rOf xs ys
    pvalue := pvalueOf xs ys
    stderr := stderrOf xs ys }

/-- TrendResult: the per-cell 5-tuple of trend statistics, each component
possibly missing (NaN). -/
structure TrendResult where
  slope : Option ℝ
  intercept : Option ℝ
  rvalue : Option ℝ
  pvalue : Option ℝ
  stderr : Option ℝ

/-- Wrap a fully defined regression result. -/
def TrendResult.ofResult (r : LinregressResult) : TrendResult :=
  { slope := some r.slope
    intercept := some r.intercept
    rvalue := some r.rvalue
    pvalue := some r.pvalue
    stderr := some r.stderr }

/-- The `linregress` call on a series that may contain missing values,
tracing IEEE NaN propagation through the scipy code for a covariate of at
least two points (the notebook's regime: a full year axis, which is never
shorter than 2).  When some `y` is NaN every covariance entry touching `y`
is NaN, so slope and intercept are NaN; the guard `ssxm == 0.0 or
ssym == 0.0` compares against NaN and hence only fires on a degenerate
covariate, in which case `r` is the literal `0.0` and, for `n > 2`, the
t statistic is exactly `0` and the p-value the literal `2*sf(0) = 1`; for a
non-degenerate covariate `r`, the p-value and the standard error are all
NaN, except in the `n == 2` branch whose p-value (`y[0] == y[1]` is false
for NaN) and standard error are the literals `0.0`. -/
def linregressNaN (xs : List ℝ) (ys : List (Option ℝ)) : TrendResult :=
  if ys.all Option.isSome then TrendResult.ofResult (linregress xs (ys.filterMap id))
  else if covn xs xs = 0 then
    if xs.length = 2 then
      { slope := none, intercept := none, rvalue := some 0, pvalue := some 0, stderr := some 0 }
    else
      { slope := none, intercept := none, rvalue := some 0, pvalue := some 1, stderr := none }
  else
    if xs.length = 2 then
      { slope := none, intercept := none, rvalue := none, pvalue := some 0, stderr := some 0 }
    else
      { slope := none, intercept := none, rvalue := none, pvalue := none, stderr := none }

/-- The notebook's `trend(x, y, dim)` at one cell: `apply_ufunc` with
`input_core_dims=[[dim], [dim]]` and `vectorize=True` broadcasts the shared
covariate `xs` and calls `linregress` on each cell's own series. -/
def trend (xs : List ℝ) (f : GridField ℝ) (la lo : ℚ) : TrendResult :=
  linregressNaN xs (seriesAt f la lo)

/-- A DataArray together with its attached (non-dimension) coordinate
arrays, as mutated by item assignment `da_year[arr_name] = arr`. -/
structure DataArrayState where
  main : GridField ℝ
  coords : List (String × (ℚ → ℚ → Option ℝ))

/-- Names the notebook zips with the five outputs of `trend`. -/
def trendNames : List String := ["slope", "intercept", "rvalue", "pvalue", "stderr"]

/-- The five per-cell output arrays of `trend(da_year['time.year'], da_year,
'time')`, in unpacking order. -/
def trendArrays (xs : List ℝ) (f : GridField ℝ) : List (ℚ → ℚ → Option ℝ) :=
  [fun la lo => (trend xs f la lo).slope,
   fun la lo => (trend xs f la lo).intercept,
   fun la lo => (trend xs f la lo).rvalue,
   fun la lo => (trend xs f la lo).pvalue,
   fun la lo => (trend xs f la lo).stderr]

/-- The notebook loop `for arr_name, arr in zip([...], trend(...)):
da_year[arr_name] = arr`, which assigns each output array to the DataArray
under its name, one coordinate per iteration. -/
def assignTrendLoop (xs : List ℝ) (d : DataArrayState) : DataArrayState :=
  (trendNames.zip (trendArrays xs d.main)).foldl
    (fun acc p => { acc with coords := acc.coords ++ [p] }) d

end

/-! ### Byte-size formatter and longitude mask -/

/-- Printed form of `convert_size`: either the literal `"0B"` or a rounded
value paired with the selected unit name (the Python `"%s %s" % (s,
size_name[i])` formatting of these two components is presentation only). -/
inductive SizeRepr : Type
  | zero : SizeRepr
  | sized : ℚ → String → SizeRepr
deriving DecidableEq

/-- Unit names tuple of `convert_size`. -/
def size_name : List String := ["B", "KB", "MB", "GB", "TB", "PB", "EB", "ZB", "YB"]

/-- Round to the nearest integer with ties to even, Python's `round`. -/
def roundHalfEven (q : ℚ) : ℤ :=
  if q - ⌊q⌋ < 1 / 2 then ⌊q⌋
  else if 1 / 2 < q - ⌊q⌋ then ⌊q⌋ + 1
  else if 2 ∣ ⌊q⌋ then ⌊q⌋ else ⌊q⌋ + 1

/-- Python `round(x, 2)`: round to 2 decimal places, ties to even. -/
def round2 (q : ℚ) : ℚ := (roundHalfEven (q * 100) : ℚ) / 100

/-- The notebook helper `convert_size(size_bytes)`: `"0B"` for zero;
otherwise `i = floor(log(size_bytes, 1024))` (the float logarithm idealised
as the exact one, i.e. `Nat.log`), `p = 1024 ** i`, and the result is
`round(size_bytes / p, 2)` with unit `size_name[i]`.  The indexing raises
`IndexError` (modelled as `none`) when `i` falls outside the nine-element
tuple. -/
def convert_size (size_bytes : ℕ) : Option SizeRepr :=
  if size_bytes = 0 then some SizeRepr.zero
  else if h : Nat.log 1024 size_bytes < size_name.length then
    some (SizeRepr.sized (round2 ((size_bytes : ℚ) / 1024 ^ Nat.log 1024 size_bytes))
      (size_name.get ⟨Nat.log 1024 size_bytes, h⟩))
  else none

/-- The region mask `(longitude > 360 + lonmin) | (longitude < lonmax)`
used to carve out a window that wraps across the prime meridian. -/
def lonMask (lonmin lonmax lon : ℚ) : Bool :=
  (360 + lonmin < lon) || (lon < lonmax)

/-- Application `field.where(mask)`: values are kept where the longitude
mask holds and replaced by the missing marker elsewhere. -/
def whereLon {α : Type} (lonmin lonmax : ℚ) (f : GridField α) : GridField α :=
  { f with value := fun t la lo => if lonMask lonmin lonmax lo then f.value t la lo else none }

/-! ### Spec-side regression quantities

Comparison definitions following the spec's wording (§4.3): ordinary
least-squares fit of the dependent series on the covariate, the Pearson
correlation coefficient, the two-sided p-value and the standard error of
the slope.  They are stated over full deviation sums, independently of the
bias-1 normalisation scipy uses, and are compared with the source-side
quantities in the refinement theorem for the trend estimator. -/

noncomputable section

/-- Ordinary least-squares slope: sum of deviation products over the sum of
squared covariate deviations. -/
def olsSlope (xs ys : List ℝ) : ℝ := (demean2 xs ys).sum / (demean2 xs xs).sum

/-- Ordinary least-squares intercept. -/
def olsIntercept (xs ys : List ℝ) : ℝ := mean ys - olsSlope xs ys * mean xs

/-- Pearson correlation coefficient in its textbook form. -/
def pearson (xs ys : List ℝ) : ℝ :=
  (demean2 xs ys).sum / Real.sqrt ((demean2 xs xs).sum * (demean2 ys ys).sum)

/-- Residuals of the ordinary least-squares fit. -/
def residuals (xs ys : List ℝ) : List ℝ :=
  List.zipWith (fun x y => y - (olsIntercept xs ys + olsSlope xs ys * x)) xs ys

/-- Standard error of the slope estimate: the square root of the residual
sum of squares over `df` times the squared covariate deviation sum. -/
def olsStderr (xs ys : List ℝ) : ℝ :=
  Real.sqrt (((residuals xs ys).map (fun e => e ^ 2)).sum /
    (((xs.length : ℝ) - 2) * (demean2 xs xs).sum))

/-- Two-sided p-value of a t statistic against Student's t distribution. -/
def twoSidedPValue (df t : ℝ) : ℝ := 2 * tSF df |t|

end

/-! ### Helper lemmas -/

theorem nanacc_eq {α : Type} [Field α] (l : List (Option α)) :
    nanacc l = ((l.filterMap id).sum, (l.filterMap id).length) := by
  induction l with
  | nil => rfl
  | cons o t ih =>
    cases o with
    | none => simpa [nanacc, List.foldr_cons] using ih
    | some v =>
      simp only [nanacc, List.foldr_cons] at ih ⊢
      rw [ih]
      simp [List.filterMap_cons]

theorem nanmean_eq {α : Type} [Field α] (l : List (Option α)) :
    nanmean l =
      if (l.filterMap id).length = 0 then none
      else some ((l.filterMap id).sum / ((l.filterMap id).length : α)) := by
  rw [nanmean, nanacc_eq]

theorem filterMap_id_all_some {α : Type} (l : List (Option α))
    (h : ∀ o ∈ l, o.isSome) : (l.filterMap id).length = l.length := by
  induction l with
  | nil => rfl
  | cons o t ih =>
    cases o with
    | none => exact absurd (h none (List.mem_cons_self _ _)) (by simp)
    | some v =>
      simp only [List.filterMap_cons, id, List.length_cons]
      rw [ih (fun o ho => h o (List.mem_cons_of_mem _ ho))]

theorem sum_map_mul_const {α β : Type} [Field α] (l : List β) (g : β → α) (c : α) :
    (l.map (fun x => g x * c)).sum = (l.map g).sum * c := by
  induction l with
  | nil => simp
  | cons a t ih => simp [ih]; ring

theorem sum_map_div_const {α β : Type} [Field α] (l : List β) (g : β → α) (c : α) :
    (l.map (fun x => g x / c)).sum = (l.map g).sum / c := by
  induction l with
  | nil => simp
  | cons a t ih => simp [ih]; ring

theorem zipWith_sum_fin {n : ℕ} (f : ℝ → ℝ → ℝ) (xs ys : List ℝ)
    (hx : xs.length = n) (hy : ys.length = n) :
    (List.zipWith f xs ys).sum =
      ∑ i : Fin n, f (xs.get (Fin.cast hx.symm i)) (ys.get (Fin.cast hy.symm i)) := by
  subst hx
  have hz : List.zipWith f xs ys =
      List.ofFn (fun i : Fin xs.length =>
        f (xs.get (Fin.cast rfl i)) (ys.get (Fin.cast hy.symm i))) := by
    apply List.ext_getElem
    · simp [hy]
    · intro i h1 h2
      simp [List.getElem_zipWith, List.getElem_ofFn, Fin.cast, List.get_eq_getElem]
  rw [hz, List.sum_ofFn]

theorem demean2_self (xs : List ℝ) :
    demean2 xs xs = xs.map (fun a => (a - mean xs) ^ 2) := by
  rw [demean2, List.zipWith_same]
  exact List.map_congr_left (fun a _ => by ring)

theorem sum_sq_list_nonneg (l : List ℝ) (g : ℝ → ℝ) : 0 ≤ (l.map (fun a => g a ^ 2)).sum := by
  apply List.sum_nonneg
  intro x hx
  rcases List.mem_map.1 hx with ⟨a, _, rfl⟩
  positivity

theorem covn_self_nonneg (xs : List ℝ) : 0 ≤ covn xs xs := by
  rw [covn, demean2_self]
  exact div_nonneg (sum_sq_list_nonneg xs _) (Nat.cast_nonneg _)

theorem sum_eq_zero_all_zero (l : List ℝ) (h : ∀ x ∈ l, 0 ≤ x) (hs : l.sum = 0) :
    ∀ x ∈ l, x = 0 := by
  induction l with
  | nil => intro x hx; simp at hx
  | cons a t ih =>
    have ha : 0 ≤ a := h a (List.mem_cons_self _ _)
    have ht : 0 ≤ t.sum := List.sum_nonneg (fun x hx => h x (List.mem_cons_of_mem _ hx))
    rw [List.sum_cons] at hs
    have ha0 : a = 0 := by linarith
    have hts : t.sum = 0 := by linarith
    intro x hx
    rcases List.mem_cons.1 hx with rfl | hx
    · exact ha0
    · exact ih (fun y hy => h y (List.mem_cons_of_mem _ hy)) hts x hx

theorem covn_self_eq_zero (xs : List ℝ) (h : covn xs xs = 0) : ∀ x ∈ xs, x = mean xs := by
  intro x hx
  have hne : xs.length ≠ 0 := fun h0 => by
    rw [List.length_eq_zero] at h0
    subst h0
    simp at hx
  have hcast : ((xs.length : ℝ)) ≠ 0 := Nat.cast_ne_zero.2 hne
  rw [covn, demean2_self, div_eq_zero_iff] at h
  rcases h with h | h
  · have := sum_eq_zero_all_zero _ (fun y hy => by
      rcases List.mem_map.1 hy with ⟨a, _, rfl⟩
      positivity) h ((x - mean xs) ^ 2) (List.mem_map.2 ⟨x, hx, rfl⟩)
    have : x - mean xs = 0 := by
      have := sq_eq_zero_iff.1 this
      exact this
    linarith
  · exact absurd h hcast

theorem covn_self_pos (xs : List ℝ) (hx2 : ∃ u ∈ xs, ∃ v ∈ xs, u ≠ v) :
    0 < covn xs xs := by
  rcases hx2 with ⟨u, hu, v, hv, huv⟩
  rcases lt_or_eq_of_le (covn_self_nonneg xs) with h | h
  · exact h
  · exfalso
    have hall := covn_self_eq_zero xs h.symm
    exact huv ((hall u hu).trans (hall v hv).symm)

theorem demean2_cs (xs ys : List ℝ) (h : ys.length = xs.length) :
    (demean2 xs ys).sum ^ 2 ≤ (demean2 xs xs).sum * (demean2 ys ys).sum := by
  rw [demean2, demean2, demean2,
    zipWith_sum_fin _ xs ys rfl h, zipWith_sum_fin _ xs xs rfl rfl,
    zipWith_sum_fin _ ys ys h h]
  have hcs := Finset.sum_mul_sq_le_sq_mul_sq Finset.univ
    (fun i : Fin xs.length => xs.get (Fin.cast rfl i) - mean xs)
    (fun i : Fin xs.length => ys.get (Fin.cast h.symm i) - mean ys)
  calc (∑ i : Fin xs.length,
        (xs.get (Fin.cast rfl i) - mean xs) * (ys.get (Fin.cast h.symm i) - mean ys)) ^ 2
      ≤ (∑ i : Fin xs.length, (xs.get (Fin.cast rfl i) - mean xs) ^ 2) *
          ∑ i : Fin xs.length, (ys.get (Fin.cast h.symm i) - mean ys) ^ 2 := hcs
    _ = _ := by
        congr 1
        · exact Finset.sum_congr rfl (fun i _ => by ring)
        · exact Finset.sum_congr rfl (fun i _ => by ring)

theorem covn_nil : covn [] [] = 0 := by
  simp [covn, demean2]

theorem length_pos_of_covn_ne (xs : List ℝ) (hx : covn xs xs ≠ 0) : xs ≠ [] := by
  intro hnil
  subst hnil
  exact hx covn_nil

theorem abs_r0_le_one (xs ys : List ℝ) (h : ys.length = xs.length) : |r0Of xs ys| ≤ 1 := by
  rw [r0Of]
  split_ifs with hguard
  · simp
  · push_neg at hguard
    obtain ⟨hx, hy⟩ := hguard
    have hxpos : 0 < covn xs xs := (covn_self_nonneg xs).lt_of_ne (Ne.symm hx)
    have hypos : 0 < covn ys ys := (covn_self_nonneg ys).lt_of_ne (Ne.symm hy)
    have hprod : 0 < covn xs xs * covn ys ys := mul_pos hxpos hypos
    have hne : xs ≠ [] := length_pos_of_covn_ne xs hx
    have hnn : (0:ℝ) < xs.length := by
      have := List.length_pos.2 hne
      exact_mod_cast this
    have hsq : (covn xs ys) ^ 2 ≤ covn xs xs * covn ys ys := by
      rw [covn, covn, covn, h, div_pow, div_mul_div_comm, ← pow_two]
      exact div_le_div_of_nonneg_right (demean2_cs xs ys h) (by positivity)
    have habs : |covn xs ys| ≤ Real.sqrt (covn xs xs * covn ys ys) :=
      Real.abs_le_sqrt hsq
    rw [abs_div, abs_of_nonneg (Real.sqrt_nonneg _)]
    rw [div_le_one (Real.sqrt_pos.2 hprod)]
    exact habs

theorem clampR_eq_self {r : ℝ} (h : |r| ≤ 1) : clampR r = r := by
  rcases abs_le.1 h with ⟨h1, h2⟩
  rw [clampR, if_neg (not_lt.2 h2), if_neg (not_lt.2 h1)]

theorem sum_map_mul_left_real {β : Type} (l : List β) (g : β → ℝ) (c : ℝ) :
    (l.map (fun x => c * g x)).sum = c * (l.map g).sum := by
  induction l with
  | nil => simp
  | cons a t ih => simp [ih]; ring

theorem sum_map_affine (xs : List ℝ) (a b : ℝ) :
    (xs.map (fun x => a + b * x)).sum = a * xs.length + b * xs.sum := by
  induction xs with
  | nil => simp
  | cons x t ih =>
    simp only [List.map_cons, List.sum_cons, ih, List.length_cons]
    push_cast
    ring

theorem mean_affine (xs : List ℝ) (a b : ℝ) (h : xs ≠ []) :
    mean (xs.map (fun x => a + b * x)) = a + b * mean xs := by
  have hn : ((xs.length : ℝ)) ≠ 0 :=
    Nat.cast_ne_zero.2 (fun h0 => h (List.length_eq_zero.1 h0))
  rw [mean, mean, List.length_map, sum_map_affine]
  field_simp

theorem demean2_affine_right (xs : List ℝ) (a b : ℝ) (h : xs ≠ []) :
    demean2 xs (xs.map (fun x => a + b * x)) =
      xs.map (fun x => b * (x - mean xs) ^ 2) := by
  rw [demean2, List.zipWith_map_right, List.zipWith_same]
  simp only [mean_affine xs a b h]
  exact List.map_congr_left (fun x _ => by ring)

theorem demean2_affine_self (xs : List ℝ) (a b : ℝ) (h : xs ≠ []) :
    demean2 (xs.map (fun x => a + b * x)) (xs.map (fun x => a + b * x)) =
      xs.map (fun x => b ^ 2 * (x - mean xs) ^ 2) := by
  rw [demean2_self, List.map_map]
  simp only [mean_affine xs a b h]
  exact List.map_congr_left (fun x _ => by simp only [Function.comp_apply]; ring)

theorem covn_affine_right (xs : List ℝ) (a b : ℝ) (h : xs ≠ []) :
    covn xs (xs.map (fun x => a + b * x)) = b * covn xs xs := by
  rw [covn, demean2_affine_right xs a b h, covn, demean2_self,
    sum_map_mul_left_real xs (fun x => (x - mean xs) ^ 2) b, mul_div_assoc]

theorem covn_affine_self (xs : List ℝ) (a b : ℝ) (h : xs ≠ []) :
    covn (xs.map (fun x => a + b * x)) (xs.map (fun x => a + b * x)) =
      b ^ 2 * covn xs xs := by
  rw [covn, demean2_affine_self xs a b h, List.length_map, covn, demean2_self,
    sum_map_mul_left_real xs (fun x => (x - mean xs) ^ 2) (b ^ 2), mul_div_assoc]

theorem slopeOf_affine (xs : List ℝ) (a b : ℝ) (hx : covn xs xs ≠ 0) :
    slopeOf xs (xs.map (fun x => a + b * x)) = b := by
  have hne : xs ≠ [] := length_pos_of_covn_ne xs hx
  rw [slopeOf, covn_affine_right xs a b hne, mul_div_assoc, div_self hx, mul_one]

theorem interceptOf_affine (xs : List ℝ) (a b : ℝ) (hx : covn xs xs ≠ 0) :
    interceptOf xs (xs.map (fun x => a + b * x)) = a := by
  have hne : xs ≠ [] := length_pos_of_covn_ne xs hx
  rw [interceptOf, slopeOf_affine xs a b hx, mean_affine xs a b hne]
  ring

theorem ne_nil_of_two_mem (xs : List ℝ) (hx2 : ∃ u ∈ xs, ∃ v ∈ xs, u ≠ v) :
    xs ≠ [] := by
  rcases hx2 with ⟨u, hu, _⟩
  intro hnil
  subst hnil
  simp at hu

theorem rOf_affine (xs : List ℝ) (a b : ℝ) (hx2 : ∃ u ∈ xs, ∃ v ∈ xs, u ≠ v)
    (hb : b ≠ 0) : rOf xs (xs.map (fun x => a + b * x)) = b / |b| := by
  have hpos : 0 < covn xs xs := covn_self_pos xs hx2
  have hne : xs ≠ [] := ne_nil_of_two_mem xs hx2
  have hxx : covn xs xs ≠ 0 := ne_of_gt hpos
  rw [rOf, r0Of, covn_affine_right xs a b hne, covn_affine_self xs a b hne]
  rw [if_neg (by
    push_neg
    exact ⟨hxx, mul_ne_zero (pow_ne_zero 2 hb) hxx⟩)]
  have hsq : covn xs xs * (b ^ 2 * covn xs xs) = (|b| * covn xs xs) ^ 2 := by
    rw [mul_pow, sq_abs]
    ring
  rw [hsq, Real.sqrt_sq (by positivity)]
  have hdiv : b * covn xs xs / (|b| * covn xs xs) = b / |b| :=
    mul_div_mul_right b |b| hxx
  rw [hdiv]
  apply clampR_eq_self
  rw [abs_div, abs_abs, div_self (abs_ne_zero.2 hb)]

theorem stderrOf_affine (xs : List ℝ) (a b : ℝ) (hx2 : ∃ u ∈ xs, ∃ v ∈ xs, u ≠ v)
    (hb : b ≠ 0) (hn2 : xs.length ≠ 2) :
    stderrOf xs (xs.map (fun x => a + b * x)) = 0 := by
  rw [stderrOf, if_neg hn2, rOf_affine xs a b hx2 hb]
  have hzero : (1 - (b / |b|) ^ 2) = 0 := by
    rw [div_pow, sq_abs, div_self (pow_ne_zero 2 hb)]
    ring
  rw [hzero]
  simp

theorem tKer_base_pos (ν t : ℝ) (hν : 0 < ν) : 0 < 1 + t ^ 2 / ν := by positivity

theorem tKer_pos (ν t : ℝ) (hν : 0 < ν) : 0 < tKer ν t :=
  Real.rpow_pos_of_pos (tKer_base_pos ν t hν) _

theorem tKer_continuous (ν : ℝ) (hν : 0 < ν) : Continuous (tKer ν) := by
  apply Continuous.rpow_const
  · exact continuous_const.add ((continuous_id.pow 2).div_const ν)
  · exact fun x => Or.inl (ne_of_gt (tKer_base_pos ν x hν))

theorem tKer_exp_eq : -(((40:ℝ) + 1) / 2) = -((41:ℝ) / 2) := by norm_num

theorem tKer_le_cauchy (t : ℝ) :
    tKer 40 t ≤ 40 ^ ((41:ℝ) / 2) * (1 + t ^ 2)⁻¹ := by
  have h1 : (0:ℝ) < 1 + t ^ 2 := by positivity
  have h2 : (1 + t ^ 2) / 40 ≤ 1 + t ^ 2 / 40 := by nlinarith [sq_nonneg t]
  have h3 : (0:ℝ) < (1 + t ^ 2) / 40 := by positivity
  have step2 : ((1 + t ^ 2) / 40 : ℝ) ^ (-((41:ℝ) / 2)) =
      40 ^ ((41:ℝ) / 2) * (1 + t ^ 2) ^ (-((41:ℝ) / 2)) := by
    rw [Real.div_rpow (le_of_lt h1) (by norm_num : (0:ℝ) ≤ 40),
      Real.rpow_neg (by norm_num : (0:ℝ) ≤ 40), div_eq_mul_inv, inv_inv]
    ring
  calc tKer 40 t ≤ ((1 + t ^ 2) / 40) ^ (-((41:ℝ) / 2)) := by
        rw [tKer, tKer_exp_eq]
        exact Real.rpow_le_rpow_of_nonpos h3 h2 (by norm_num)
    _ = 40 ^ ((41:ℝ) / 2) * (1 + t ^ 2) ^ (-((41:ℝ) / 2)) := step2
    _ ≤ 40 ^ ((41:ℝ) / 2) * (1 + t ^ 2) ^ (-1 : ℝ) := by
        apply mul_le_mul_of_nonneg_left _ (Real.rpow_nonneg (by norm_num) _)
        exact Real.rpow_le_rpow_of_exponent_le (by nlinarith [sq_nonneg t]) (by norm_num)
    _ = 40 ^ ((41:ℝ) / 2) * (1 + t ^ 2)⁻¹ := by rw [Real.rpow_neg_one]

theorem tKer_integrable : MeasureTheory.Integrable (tKer 40) := by
  apply MeasureTheory.Integrable.mono'
    (integrable_inv_one_add_sq.const_mul ((40:ℝ) ^ ((41:ℝ) / 2)))
  · exact (tKer_continuous 40 (by norm_num)).aestronglyMeasurable
  · filter_upwards with t
    rw [Real.norm_eq_abs, abs_of_pos (tKer_pos 40 t (by norm_num))]
    exact tKer_le_cauchy t

theorem tKer_one_lower : (1:ℝ) / 2 ≤ tKer 40 1 := by
  rw [tKer, tKer_exp_eq]
  have hb : (1 + (1:ℝ) ^ 2 / 40) = 41 / 40 := by norm_num
  rw [hb, Real.rpow_neg (by norm_num : (0:ℝ) ≤ 41 / 40)]
  have h2 : ((41:ℝ) / 40) ^ ((41:ℝ) / 2) ≤ 2 := by
    have h41 : ((41:ℝ) / 2) = ((41:ℕ) : ℝ) * (2⁻¹ : ℝ) := by push_cast; ring
    rw [h41, Real.rpow_mul (by norm_num : (0:ℝ) ≤ 41 / 40), Real.rpow_natCast]
    have hsq : ((41:ℝ) / 40) ^ (41:ℕ) ≤ 4 := by norm_num
    have hhalf : ((2:ℝ)⁻¹) = 1 / 2 := by norm_num
    rw [hhalf, ← Real.sqrt_eq_rpow]
    calc Real.sqrt (((41:ℝ) / 40) ^ (41:ℕ)) ≤ Real.sqrt 4 := Real.sqrt_le_sqrt hsq
      _ = 2 := by
          rw [show (4:ℝ) = 2 ^ 2 by norm_num, Real.sqrt_sq (by norm_num : (0:ℝ) ≤ 2)]
  have hxpos : (0:ℝ) < ((41:ℝ) / 40) ^ ((41:ℝ) / 2) :=
    Real.rpow_pos_of_pos (by norm_num) _
  calc (1:ℝ) / 2 = 2⁻¹ := by norm_num
    _ ≤ (((41:ℝ) / 40) ^ ((41:ℝ) / 2))⁻¹ := inv_le_inv_of_le hxpos h2

theorem tKer_int_lower : (1:ℝ) / 2 ≤ ∫ t : ℝ, tKer 40 t := by
  have hmono : ∀ t ∈ Set.Ioc (0:ℝ) 1, tKer 40 1 ≤ tKer 40 t := by
    intro t ht
    rw [tKer, tKer]
    apply Real.rpow_le_rpow_of_nonpos (by positivity) _ (by norm_num)
    nlinarith [ht.1, ht.2]
  have hconst : tKer 40 1 * (MeasureTheory.volume (Set.Ioc (0:ℝ) 1)).toReal ≤
      ∫ t in Set.Ioc (0:ℝ) 1, tKer 40 t := by
    apply MeasureTheory.setIntegral_ge_of_const_le measurableSet_Ioc
    · rw [Real.volume_Ioc]
      exact ENNReal.ofReal_ne_top
    · exact hmono
    · exact tKer_integrable.integrableOn
  rw [Real.volume_Ioc] at hconst
  norm_num at hconst
  have hle : (∫ t in Set.Ioc (0:ℝ) 1, tKer 40 t) ≤ ∫ t : ℝ, tKer 40 t :=
    MeasureTheory.setIntegral_le_integral tKer_integrable
      (Filter.Eventually.of_forall (fun t => (tKer_pos 40 t (by norm_num)).le))
  have h1 := tKer_one_lower
  linarith

theorem tKer_tail_le (x : ℝ) (hx : 40 ≤ x) :
    (∫ t in Set.Ioi x, tKer 40 t) ≤ x⁻¹ := by
  have hx0 : (0:ℝ) < x := lt_of_lt_of_le (by norm_num) hx
  have hmono : ∀ t ∈ Set.Ioi x, tKer 40 t ≤ t ^ (-2 : ℝ) := by
    intro t ht
    have ht40 : (40:ℝ) ≤ t := le_trans hx (le_of_lt ht)
    have ht0 : (0:ℝ) < t := by linarith
    have hbase : t ≤ 1 + t ^ 2 / 40 := by nlinarith
    calc tKer 40 t ≤ t ^ (-((41:ℝ) / 2)) := by
          rw [tKer, tKer_exp_eq]
          exact Real.rpow_le_rpow_of_nonpos ht0 hbase (by norm_num)
      _ ≤ t ^ (-2 : ℝ) :=
          Real.rpow_le_rpow_of_exponent_le (by linarith) (by norm_num)
  have hle : (∫ t in Set.Ioi x, tKer 40 t) ≤ ∫ t in Set.Ioi x, t ^ (-2 : ℝ) := by
    apply MeasureTheory.setIntegral_mono_on
      tKer_integrable.integrableOn
      (integrableOn_Ioi_rpow_of_lt (by norm_num) hx0)
      measurableSet_Ioi
      hmono
  rw [integral_Ioi_rpow_of_lt (by norm_num) hx0] at hle
  have hsimp : -x ^ ((-2:ℝ) + 1) / ((-2:ℝ) + 1) = x⁻¹ := by
    have he : ((-2:ℝ) + 1) = -1 := by norm_num
    rw [he, Real.rpow_neg_one]
    field_simp
  linarith [hle, hsimp.ge, hsimp.le]

theorem tSF_lt (x : ℝ) (hx : 400 < x) : 2 * tSF 40 x < 1 / 100 := by
  have hx40 : (40:ℝ) ≤ x := by linarith
  have hx0 : (0:ℝ) < x := by linarith
  have hnum0 : 0 ≤ ∫ t in Set.Ioi x, tKer 40 t :=
    MeasureTheory.setIntegral_nonneg measurableSet_Ioi
      (fun t _ => (tKer_pos 40 t (by norm_num)).le)
  have hnum := tKer_tail_le x hx40
  have hden := tKer_int_lower
  have hdiv : tSF 40 x ≤ x⁻¹ / (1 / 2) := by
    rw [tSF]
    exact div_le_div (by positivity) hnum (by norm_num) hden
  have hinv : x⁻¹ / ((1:ℝ) / 2) = 2 / x := by
    field_simp
  have h2x : 2 / x < 1 / 200 := by
    rw [div_lt_div_iff hx0 (by norm_num)]
    linarith
  have : tSF 40 x < 1 / 200 := lt_of_le_of_lt (hdiv.trans_eq hinv) h2x
  linarith

theorem linregressNaN_valid (xs vs : List ℝ) :
    linregressNaN xs (vs.map some) = TrendResult.ofResult (linregress xs vs) := by
  rw [linregressNaN, if_pos (by simp)]
  congr 2
  rw [List.filterMap_map]
  simpa using List.filterMap_some vs

theorem map_zipWith_list {f : ℝ → ℝ → ℝ} {g : ℝ → ℝ} (xs ys : List ℝ) :
    (List.zipWith f xs ys).map g = List.zipWith (fun a b => g (f a b)) xs ys := by
  induction xs generalizing ys with
  | nil => simp
  | cons x t ih => cases ys <;> simp [ih]

theorem tOf_affine_abs (xs : List ℝ) (a b : ℝ) (hx2 : ∃ u ∈ xs, ∃ v ∈ xs, u ≠ v)
    (hb : b ≠ 0) :
    |tOf xs (xs.map (fun x => a + b * x))| =
      Real.sqrt (dfOf xs / ((2 + TINY) * TINY)) := by
  rw [tOf, rOf_affine xs a b hx2 hb]
  rcases lt_or_gt_of_ne hb with hbneg | hbpos
  · have hr : b / |b| = -1 := by
      rw [abs_of_neg hbneg, div_neg, div_self hb]
    rw [hr, abs_mul, abs_neg, abs_one, one_mul, abs_of_nonneg (Real.sqrt_nonneg _)]
    congr 1
    ring
  · have hr : b / |b| = 1 := by
      rw [abs_of_pos hbpos, div_self hb]
    rw [hr, abs_mul, abs_one, one_mul, abs_of_nonneg (Real.sqrt_nonneg _)]
    congr 1
    ring

theorem cast_length_ne_zero_of_covn (xs : List ℝ) (hx : covn xs xs ≠ 0) :
    ((xs.length : ℝ)) ≠ 0 := by
  intro h0
  apply hx
  rw [covn, h0, div_zero]

theorem demean2_sum_ne_zero (xs : List ℝ) (hx : covn xs xs ≠ 0) :
    (demean2 xs xs).sum ≠ 0 := by
  intro hS
  apply hx
  rw [covn, hS, zero_div]

theorem demean2_sum_nonneg (xs : List ℝ) : 0 ≤ (demean2 xs xs).sum := by
  rw [demean2_self]
  exact sum_sq_list_nonneg xs _

theorem slopeOf_eq_ols (xs ys : List ℝ) (hx : covn xs xs ≠ 0) :
    slopeOf xs ys = olsSlope xs ys := by
  have hn := cast_length_ne_zero_of_covn xs hx
  have hSxx := demean2_sum_ne_zero xs hx
  rw [slopeOf, olsSlope, covn, covn]
  field_simp

theorem interceptOf_eq_ols (xs ys : List ℝ) (hx : covn xs xs ≠ 0) :
    interceptOf xs ys = olsIntercept xs ys := by
  rw [interceptOf, olsIntercept, slopeOf_eq_ols xs ys hx]

theorem rOf_eq_pearson (xs ys : List ℝ) (h : ys.length = xs.length)
    (hx : covn xs xs ≠ 0) (hy : covn ys ys ≠ 0) :
    rOf xs ys = pearson xs ys := by
  have hclamp := clampR_eq_self (abs_r0_le_one xs ys h)
  rw [rOf, hclamp, r0Of, if_neg (by push_neg; exact ⟨hx, hy⟩), pearson]
  have hn := cast_length_ne_zero_of_covn xs hx
  have hSxx := demean2_sum_ne_zero xs hx
  have hSyy := demean2_sum_ne_zero ys hy
  have hSxx_pos : 0 < (demean2 xs xs).sum :=
    (demean2_sum_nonneg xs).lt_of_ne (Ne.symm hSxx)
  have hSyy_pos : 0 < (demean2 ys ys).sum :=
    (demean2_sum_nonneg ys).lt_of_ne (Ne.symm hSyy)
  have hprod_pos : 0 < (demean2 xs xs).sum * (demean2 ys ys).sum :=
    mul_pos hSxx_pos hSyy_pos
  rw [covn, covn, covn, h]
  have hsplit : Real.sqrt ((demean2 xs xs).sum / (xs.length : ℝ) *
        ((demean2 ys ys).sum / (xs.length : ℝ))) =
      Real.sqrt ((demean2 xs xs).sum * (demean2 ys ys).sum) / (xs.length : ℝ) := by
    rw [show (demean2 xs xs).sum / (xs.length : ℝ) *
          ((demean2 ys ys).sum / (xs.length : ℝ)) =
        (demean2 xs xs).sum * (demean2 ys ys).sum / ((xs.length : ℝ)) ^ 2 by ring]
    rw [Real.sqrt_div (le_of_lt hprod_pos), Real.sqrt_sq (Nat.cast_nonneg _)]
  rw [hsplit]
  have hsqrt_pos : 0 < Real.sqrt ((demean2 xs xs).sum * (demean2 ys ys).sum) :=
    Real.sqrt_pos.2 hprod_pos
  rw [div_div_div_eq, mul_comm ((xs.length : ℝ)) _, mul_div_mul_right _ _ hn]

theorem residuals_eq (xs ys : List ℝ) :
    residuals xs ys = List.zipWith
      (fun x y => (y - mean ys) - olsSlope xs ys * (x - mean xs)) xs ys := by
  rw [residuals]
  congr 1
  funext x y
  rw [olsIntercept]
  ring

theorem sum_sq_residual {n : ℕ} (f g : Fin n → ℝ)
    (hB : (∑ i, f i * f i) ≠ 0) :
    (∑ i, (g i - ((∑ j, f j * g j) / (∑ j, f j * f j)) * f i) ^ 2) =
      (∑ i, g i * g i) - (∑ i, f i * g i) ^ 2 / (∑ i, f i * f i) := by
  set A := ∑ j, f j * g j with hA
  set B := ∑ j, f j * f j with hB2
  have hexp : ∀ i ∈ Finset.univ, (g i - A / B * f i) ^ 2 =
      g i * g i - (2 * (A / B)) * (f i * g i) + (A / B) ^ 2 * (f i * f i) :=
    fun i _ => by ring
  rw [Finset.sum_congr rfl hexp, Finset.sum_add_distrib, Finset.sum_sub_distrib,
    ← Finset.mul_sum, ← Finset.mul_sum, ← hA, ← hB2]
  field_simp
  ring

theorem rss_eq (xs ys : List ℝ) (h : ys.length = xs.length)
    (hSxx : (demean2 xs xs).sum ≠ 0) :
    ((residuals xs ys).map (fun e => e ^ 2)).sum =
      (demean2 ys ys).sum - (demean2 xs ys).sum ^ 2 / (demean2 xs xs).sum := by
  have hxy : (demean2 xs ys).sum = ∑ i : Fin xs.length,
      (xs.get i - mean xs) * (ys.get (Fin.cast h.symm i) - mean ys) := by
    rw [demean2]
    exact zipWith_sum_fin _ xs ys rfl h
  have hyy : (demean2 ys ys).sum = ∑ i : Fin xs.length,
      (ys.get (Fin.cast h.symm i) - mean ys) * (ys.get (Fin.cast h.symm i) - mean ys) := by
    rw [demean2]
    exact zipWith_sum_fin _ ys ys h h
  have hxx : (demean2 xs xs).sum = ∑ i : Fin xs.length,
      (xs.get i - mean xs) * (xs.get i - mean xs) := by
    rw [demean2]
    exact zipWith_sum_fin _ xs xs rfl rfl
  have hres : ((residuals xs ys).map (fun e => e ^ 2)).sum = ∑ i : Fin xs.length,
      ((ys.get (Fin.cast h.symm i) - mean ys) - olsSlope xs ys * (xs.get i - mean xs)) ^ 2 := by
    rw [residuals_eq, map_zipWith_list]
    exact zipWith_sum_fin _ xs ys rfl h
  have hs : olsSlope xs ys =
      (∑ i : Fin xs.length, (xs.get i - mean xs) * (ys.get (Fin.cast h.symm i) - mean ys)) /
        (∑ i : Fin xs.length, (xs.get i - mean xs) * (xs.get i - mean xs)) := by
    rw [olsSlope, hxy, hxx]
  have hSxxF : (∑ i : Fin xs.length, (xs.get i - mean xs) * (xs.get i - mean xs)) ≠ 0 := by
    rw [← hxx]
    exact hSxx
  rw [hres, hyy, hxy, hxx, hs]
  exact sum_sq_residual (fun i => xs.get i - mean xs)
    (fun i => ys.get (Fin.cast h.symm i) - mean ys) hSxxF

theorem stderrOf_eq_ols (xs ys : List ℝ) (h : ys.length = xs.length)
    (hx : covn xs xs ≠ 0) (hy : covn ys ys ≠ 0) (hn2 : xs.length ≠ 2) :
    stderrOf xs ys = olsStderr xs ys := by
  rw [stderrOf, if_neg hn2, olsStderr]
  congr 1
  rw [rss_eq xs ys h (demean2_sum_ne_zero xs hx)]
  have hn := cast_length_ne_zero_of_covn xs hx
  have hSxx := demean2_sum_ne_zero xs hx
  have hSyy := demean2_sum_ne_zero ys hy
  have hdf : ((xs.length : ℝ) - 2) ≠ 0 := by
    intro hc
    apply hn2
    have h2 : ((xs.length : ℝ)) = 2 := by linarith
    exact_mod_cast h2
  have hclamp := clampR_eq_self (abs_r0_le_one xs ys h)
  rw [rOf, hclamp, r0Of, if_neg (by push_neg; exact ⟨hx, hy⟩)]
  rw [div_pow, Real.sq_sqrt (mul_nonneg (covn_self_nonneg xs) (covn_self_nonneg ys))]
  rw [covn, covn, covn, h, dfOf]
  field_simp
  ring

theorem groupTimes_season_length {α : Type} (y0 : ℤ) (f : GridField α) (s : Season)
    (h : f.times = List.map (fun i : ℕ => 12 * y0 + (i : ℤ)) (List.range 48)) :
    (groupTimes seasonKey f s).length = 12 := by
  rw [groupTimes, h, List.filter_map, List.length_map, ← List.countP_eq_length_filter]
  have hcong : ∀ i ∈ List.range 48,
      (((fun t => decide (seasonKey t = s)) ∘ fun i : ℕ => 12 * y0 + (i : ℤ)) i = true ↔
        (fun i : ℕ => decide (seasonKey (i : ℤ) = s)) i = true) := by
    intro i _
    have hmod : (12 * y0 + (i : ℤ)) % 12 = (i : ℤ) % 12 := by
      rw [add_comm, Int.add_mul_emod_self_left]
    simp [seasonKey, monthOf, hmod]
  rw [List.countP_congr hcong]
  cases s <;> decide

/-! ### Claim theorems: climatology, spatial average, seasons, size, mask -/

/-- C4: for every GridField and grouping key, the Climatology Reducer's mean at
each cell is a count-based average over the non-missing samples of that group
only — missing values are excluded from both the sum and the denominator — and
a group whose samples at a cell are all missing yields a missing result at that
cell rather than a divide-by-zero fault or exception. -/
theorem groupbyMean_count_based {α κ : Type} [Field α] [DecidableEq κ]
    (key : ℤ → κ) (f : GridField α) (k : κ) (la lo : ℚ) :
    (((groupTimes key f k).map (fun t => f.value t la lo)).filterMap id ≠ [] →
      groupbyMean key f k la lo =
        some ((((groupTimes key f k).map (fun t => f.value t la lo)).filterMap id).sum /
          ((((groupTimes key f k).map (fun t => f.value t la lo)).filterMap id).length : α))) ∧
    ((∀ o ∈ (groupTimes key f k).map (fun t => f.value t la lo), o = none) →
      groupbyMean key f k la lo = none) := by
  constructor
  · intro hne
    rw [groupbyMean, nanmean_eq, if_neg (fun h => hne (List.length_eq_zero.1 h))]
  · intro hall
    rw [groupbyMean, nanmean_eq, if_pos]
    rw [List.length_eq_zero, List.filterMap_eq_nil_iff]
    intro o ho
    simpa using hall o ho

/-- Witness for C4 on a three-month field: the DJF group averages its two
valid samples and the MAM group, whose only sample is missing, yields the
missing marker. -/
theorem groupbyMean_count_based_witness :
    groupbyMean seasonKey
        (GridField.mk [0, 1, 2] [0] [0]
          (fun t _ _ => if t = 2 then none else some ((t : ℚ) + 1))) Season.DJF 0 0 =
      some (3 / 2) ∧
    groupbyMean seasonKey
        (GridField.mk [0, 1, 2] [0] [0]
          (fun t _ _ => if t = 2 then none else some ((t : ℚ) + 1))) Season.MAM 0 0 =
      none := by
  constructor
  · have h := (groupbyMean_count_based seasonKey
      (GridField.mk [0, 1, 2] [0] [0]
        (fun t _ _ => if t = 2 then none else some ((t : ℚ) + 1))) Season.DJF 0 0).1
    have hg : groupTimes seasonKey
        (GridField.mk [0, 1, 2] [0] [0]
          (fun t _ _ => if t = 2 then none else some ((t : ℚ) + 1))) Season.DJF = [0, 1] := by
      decide
    rw [h (by decide), hg]
    norm_num [List.filterMap_cons]
  · exact (groupbyMean_count_based seasonKey
      (GridField.mk [0, 1, 2] [0] [0]
        (fun t _ _ => if t = 2 then none else some ((t : ℚ) + 1))) Season.MAM 0 0).2
      (by decide)

/-- C5: for a GridField with no missing values at a cell, the overall
climatology `da.mean('time')` at that cell is the naive arithmetic mean, the
sum of the cell's samples divided by their count. -/
theorem clim_naive_mean {α : Type} [Field α] (f : GridField α) (la lo : ℚ)
    (vs : List α) (hser : seriesAt f la lo = vs.map some) (hne : vs ≠ []) :
    clim f la lo = some (vs.sum / (vs.length : α)) := by
  have hfm : (seriesAt f la lo).filterMap id = vs := by
    rw [hser, List.filterMap_map]
    simpa using List.filterMap_some vs
  rw [clim, nanmean_eq, hfm, if_neg (fun h => hne (List.length_eq_zero.1 h))]

/-- Witness for C5: a two-sample cell with values 1 and 2 has overall mean
3/2. -/
theorem clim_naive_mean_witness :
    clim (GridField.mk [0, 1] [0] [0] (fun t _ _ => some ((t : ℚ) + 1))) 0 0 =
      some (3 / 2) := by
  have h := clim_naive_mean
    (GridField.mk [0, 1] [0] [0] (fun t _ _ => some ((t : ℚ) + 1))) 0 0 [1, 2]
    (by simp [seriesAt]; norm_num) (by simp)
  rw [h]
  norm_num

/-- C7: on a 4-year monthly time axis, grouping by calendar season gives each
of the four season groups exactly 12 member months (3 calendar months times 4
years), the group mean divides the group's sample sum by exactly 12 when no
sample is missing, and each calendar month belongs to exactly one season
following the Dec/Jan/Feb-to-DJF, Mar/Apr/May-to-MAM, Jun/Jul/Aug-to-JJA,
Sep/Oct/Nov-to-SON table. -/
theorem seasonal_grouping (y0 : ℤ) (f : GridField ℚ) (la lo : ℚ) (s : Season)
    (htimes : f.times = List.map (fun i : ℕ => 12 * y0 + (i : ℤ)) (List.range 48))
    (hvalid : ∀ t ∈ f.times, (f.value t la lo).isSome) :
    (groupTimes seasonKey f s).length = 12 ∧
    groupbyMean seasonKey f s la lo =
      some ((((groupTimes seasonKey f s).map (fun t => f.value t la lo)).filterMap id).sum
        / 12) ∧
    (seasonOfMonth 12 = Season.DJF ∧ seasonOfMonth 1 = Season.DJF ∧
      seasonOfMonth 2 = Season.DJF ∧ seasonOfMonth 3 = Season.MAM ∧
      seasonOfMonth 4 = Season.MAM ∧ seasonOfMonth 5 = Season.MAM ∧
      seasonOfMonth 6 = Season.JJA ∧ seasonOfMonth 7 = Season.JJA ∧
      seasonOfMonth 8 = Season.JJA ∧ seasonOfMonth 9 = Season.SON ∧
      seasonOfMonth 10 = Season.SON ∧ seasonOfMonth 11 = Season.SON) := by
  have hlen := groupTimes_season_length y0 f s htimes
  have hval : ∀ o ∈ (groupTimes seasonKey f s).map (fun t => f.value t la lo),
      o.isSome := by
    intro o ho
    rcases List.mem_map.1 ho with ⟨t, ht, rfl⟩
    exact hvalid t (List.mem_of_mem_filter ht)
  have hflen :
      (((groupTimes seasonKey f s).map (fun t => f.value t la lo)).filterMap id).length
        = 12 := by
    rw [filterMap_id_all_some _ hval, List.length_map, hlen]
  refine ⟨hlen, ?_, by decide⟩
  rw [groupbyMean, nanmean_eq, if_neg (by rw [hflen]; norm_num), hflen]
  norm_num

/-- Witness for C7 on the 48 months starting at serial 0 with constant value
1: the DJF group has 12 members and mean 1. -/
theorem seasonal_grouping_witness :
    (groupTimes seasonKey
        (GridField.mk (List.map (fun i : ℕ => 12 * 0 + (i : ℤ)) (List.range 48)) [0] [0]
          (fun _ _ _ => some (1 : ℚ))) Season.DJF).length = 12 ∧
    groupbyMean seasonKey
        (GridField.mk (List.map (fun i : ℕ => 12 * 0 + (i : ℤ)) (List.range 48)) [0] [0]
          (fun _ _ _ => some (1 : ℚ))) Season.DJF 0 0 = some 1 := by
  obtain ⟨h1, h2, h3⟩ := seasonal_grouping 0
    (GridField.mk (List.map (fun i : ℕ => 12 * 0 + (i : ℤ)) (List.range 48)) [0] [0]
      (fun _ _ _ => some (1 : ℚ))) 0 0 Season.DJF rfl (fun t _ => rfl)
  refine ⟨h1, ?_⟩
  rw [h2]
  have hconst : ∀ l : List ℤ,
      ((l.map (fun _ => some (1 : ℚ))).filterMap id).sum = (l.length : ℚ) := by
    intro l
    induction l with
    | nil => simp
    | cons a t ih => simp [ih, add_comm]
  have hmap :
      (groupTimes seasonKey
          (GridField.mk (List.map (fun i : ℕ => 12 * 0 + (i : ℤ)) (List.range 48)) [0] [0]
            (fun _ _ _ => some (1 : ℚ))) Season.DJF).map
          (fun t =>
            (GridField.mk (List.map (fun i : ℕ => 12 * 0 + (i : ℤ)) (List.range 48)) [0] [0]
              (fun _ _ _ => some (1 : ℚ))).value t 0 0) =
        (groupTimes seasonKey
          (GridField.mk (List.map (fun i : ℕ => 12 * 0 + (i : ℤ)) (List.range 48)) [0] [0]
            (fun _ _ _ => some (1 : ℚ))) Season.DJF).map (fun _ => some (1 : ℚ)) := rfl
  rw [hmap, hconst, h1]
  norm_num

/-- C1: the Per-Cell Trend Estimator applies `linregress` independently at
every cell, with that cell's series as dependent variable and the shared
covariate as independent variable; the result at a cell depends only on that
cell's series; and exactly five per-cell outputs are returned — slope,
intercept, Pearson correlation coefficient, two-sided p-value for the null
hypothesis of zero slope, and standard error of the slope — each agreeing
with the corresponding textbook ordinary-least-squares quantity on a
non-degenerate fully-valid series. -/
theorem trend_percell_ols (xs ys : List ℝ) (f g : GridField ℝ) (la lo : ℚ)
    (hser : seriesAt f la lo = ys.map some)
    (hlen : ys.length = xs.length)
    (hx : covn xs xs ≠ 0) (hy : covn ys ys ≠ 0) (hn2 : xs.length ≠ 2)
    (hg : seriesAt g la lo = seriesAt f la lo) :
    trend xs f la lo = linregressNaN xs (seriesAt f la lo) ∧
    trend xs g la lo = trend xs f la lo ∧
    (trend xs f la lo).slope = some (olsSlope xs ys) ∧
    (trend xs f la lo).intercept = some (olsIntercept xs ys) ∧
    (trend xs f la lo).rvalue = some (pearson xs ys) ∧
    (trend xs f la lo).pvalue = some (twoSidedPValue (dfOf xs) (tOf xs ys)) ∧
    (trend xs f la lo).stderr = some (olsStderr xs ys) := by
  have htr : trend xs f la lo = TrendResult.ofResult (linregress xs ys) := by
    rw [trend, hser, linregressNaN_valid]
  refine ⟨rfl, by rw [trend, hg, trend], ?_, ?_, ?_, ?_, ?_⟩
  · rw [htr]
    simp only [TrendResult.ofResult, linregress]
    rw [slopeOf_eq_ols xs ys hx]
  · rw [htr]
    simp only [TrendResult.ofResult, linregress]
    rw [interceptOf_eq_ols xs ys hx]
  · rw [htr]
    simp only [TrendResult.ofResult, linregress]
    rw [rOf_eq_pearson xs ys hlen hx hy]
  · rw [htr]
    simp only [TrendResult.ofResult, linregress]
    rw [pvalueOf, if_neg hn2, twoSidedPValue]
  · rw [htr]
    simp only [TrendResult.ofResult, linregress]
    rw [stderrOf_eq_ols xs ys hlen hx hy hn2]

/-- Witness for C1 on the covariate [0, 1, 2] and series [1, 2, 4]: the
returned slope, correlation and standard error are the ordinary
least-squares quantities of that cell. -/
theorem trend_percell_ols_witness :
    (trend [0, 1, 2]
        (GridField.mk [0, 1, 2] [0] [0]
          (fun t _ _ => some (if t = 0 then (1 : ℝ) else if t = 1 then 2 else 4))) 0 0).slope =
      some (olsSlope [0, 1, 2] [1, 2, 4]) ∧
    (trend [0, 1, 2]
        (GridField.mk [0, 1, 2] [0] [0]
          (fun t _ _ => some (if t = 0 then (1 : ℝ) else if t = 1 then 2 else 4))) 0 0).rvalue =
      some (pearson [0, 1, 2] [1, 2, 4]) ∧
    (trend [0, 1, 2]
        (GridField.mk [0, 1, 2] [0] [0]
          (fun t _ _ => some (if t = 0 then (1 : ℝ) else if t = 1 then 2 else 4))) 0 0).stderr =
      some (olsStderr [0, 1, 2] [1, 2, 4]) := by
  obtain ⟨h1, h2, h3, h4, h5, h6, h7⟩ := trend_percell_ols [0, 1, 2] [1, 2, 4]
    (GridField.mk [0, 1, 2] [0] [0]
      (fun t _ _ => some (if t = 0 then (1 : ℝ) else if t = 1 then 2 else 4)))
    (GridField.mk [0, 1, 2] [0] [0]
      (fun t _ _ => some (if t = 0 then (1 : ℝ) else if t = 1 then 2 else 4)))
    0 0
    (by simp [seriesAt])
    (by simp)
    (by norm_num [covn, demean2, mean])
    (by norm_num [covn, demean2, mean])
    (by norm_num)
    rfl
  exact ⟨h3, h5, h7⟩

/-- C2 (amended): with a covariate of at least three points and nonzero
variance, a missing value at any time point of a cell is not excluded from
that cell's fit: it makes all five of that cell's trend outputs missing,
while any cell whose own series is unchanged gets an identical result (no
cross-cell contamination) and no exception is raised; in particular a cell
with fewer than 2 valid points in such a series yields the all-missing
TrendResult. -/
theorem trend_missing_propagates (xs : List ℝ) (f g : GridField ℝ) (la la2 lo lo2 : ℚ)
    (hmiss : none ∈ seriesAt f la lo)
    (hx : covn xs xs ≠ 0) (hn2 : xs.length ≠ 2)
    (hg : seriesAt g la2 lo2 = seriesAt f la2 lo2) :
    trend xs f la lo = TrendResult.mk none none none none none ∧
    trend xs g la2 lo2 = trend xs f la2 lo2 := by
  constructor
  · have hnall : ¬(seriesAt f la lo).all Option.isSome = true := by
      rw [List.all_eq_true]
      intro hall
      have := hall none hmiss
      simp at this
    rw [trend, linregressNaN, if_neg hnall, if_neg hx, if_neg hn2]
  · rw [trend, hg, trend]

/-- Witness for C2: a cell whose third sample is missing gets the
all-missing result. -/
theorem trend_missing_propagates_witness :
    trend [0, 1, 2]
        (GridField.mk [0, 1, 2] [0] [0]
          (fun t _ _ => if t = 2 then none else some ((t : ℝ) + 1))) 0 0 =
      TrendResult.mk none none none none none := by
  exact (trend_missing_propagates [0, 1, 2]
    (GridField.mk [0, 1, 2] [0] [0]
      (fun t _ _ => if t = 2 then none else some ((t : ℝ) + 1)))
    (GridField.mk [0, 1, 2] [0] [0]
      (fun t _ _ => if t = 2 then none else some ((t : ℝ) + 1)))
    0 0 0 0
    (by simp [seriesAt])
    (by norm_num [covn, demean2, mean])
    (by norm_num)
    rfl).1

/-- Counterexample for C2 as stated: on the series [1, 2, missing] over the
covariate [0, 1, 2] the code returns a missing slope, whereas excluding the
missing time point from the fit (regressing the two valid points) would
return slope 1. -/
theorem trend_missing_counterexample :
    (linregressNaN [0, 1, 2] [some 1, some 2, none]).slope = none ∧
    (linregress [0, 1] [1, 2]).slope = 1 := by
  constructor
  · rw [linregressNaN, if_neg (by simp), if_neg (by norm_num [covn, demean2, mean]),
      if_neg (by norm_num)]
  · show slopeOf [0, 1] [1, 2] = 1
    norm_num [slopeOf, covn, demean2, mean]

/-- C6 (amended): on a zero-noise cell series exactly `a + b * x` against the
covariate `x`, the estimator recovers slope exactly `b` and intercept exactly
`a`; the correlation is `-1` for `b < 0` and `1` for `b > 0` (its magnitude,
not its signed value, is 1); the standard error is exactly 0; and for 42
covariate points (years 1979-2020) with `b ≠ 0` the p-value is below 0.01. -/
theorem trend_linear_recovery (xs : List ℝ) (f : GridField ℝ) (la lo : ℚ) (a b : ℝ)
    (hser : seriesAt f la lo = (xs.map (fun x => a + b * x)).map some)
    (hx2 : ∃ u ∈ xs, ∃ v ∈ xs, u ≠ v) :
    (trend xs f la lo).slope = some b ∧
    (trend xs f la lo).intercept = some a ∧
    (b < 0 → (trend xs f la lo).rvalue = some (-1)) ∧
    (0 < b → (trend xs f la lo).rvalue = some 1) ∧
    (b ≠ 0 → xs.length ≠ 2 → (trend xs f la lo).stderr = some 0) ∧
    (b ≠ 0 → xs.length = 42 →
      ∃ p, (trend xs f la lo).pvalue = some p ∧ p < 1 / 100) := by
  have hxx : covn xs xs ≠ 0 := ne_of_gt (covn_self_pos xs hx2)
  have htr : trend xs f la lo =
      TrendResult.ofResult (linregress xs (xs.map (fun x => a + b * x))) := by
    rw [trend, hser, linregressNaN_valid]
  refine ⟨?_, ?_, ?_, ?_, ?_, ?_⟩
  · rw [htr]
    simp only [TrendResult.ofResult, linregress]
    rw [slopeOf_affine xs a b hxx]
  · rw [htr]
    simp only [TrendResult.ofResult, linregress]
    rw [interceptOf_affine xs a b hxx]
  · intro hbneg
    rw [htr]
    simp only [TrendResult.ofResult, linregress]
    rw [rOf_affine xs a b hx2 (ne_of_lt hbneg), abs_of_neg hbneg, div_neg,
      div_self (ne_of_lt hbneg)]
  · intro hbpos
    rw [htr]
    simp only [TrendResult.ofResult, linregress]
    rw [rOf_affine xs a b hx2 (ne_of_gt hbpos), abs_of_pos hbpos,
      div_self (ne_of_gt hbpos)]
  · intro hb hn2
    rw [htr]
    simp only [TrendResult.ofResult, linregress]
    rw [stderrOf_affine xs a b hx2 hb hn2]
  · intro hb hlen
    refine ⟨pvalueOf xs (xs.map (fun x => a + b * x)), ?_, ?_⟩
    · rw [htr]
      simp only [TrendResult.ofResult, linregress]
    · rw [pvalueOf, if_neg (by rw [hlen]; norm_num), tOf_affine_abs xs a b hx2 hb]
      have hdf : dfOf xs = 40 := by
        rw [dfOf, hlen]
        norm_num
      rw [hdf]
      apply tSF_lt
      rw [Real.lt_sqrt (by norm_num)]
      rw [TINY]
      norm_num

/-- Witness for C6 on the 42 years 1979-2020 with the exactly linear series
`5 - 0.03 * year` (slope -0.3 degrees per decade): slope -0.03 per year,
intercept 5, correlation -1, standard error 0, and p-value below 0.01. -/
theorem trend_linear_recovery_witness :
    (trend (List.map (fun i : ℕ => (1979 + i : ℝ)) (List.range 42))
        (GridField.mk (List.map (fun i : ℕ => (i : ℤ)) (List.range 42)) [0] [0]
          (fun t _ _ => some (5 + (-3 / 100) * (1979 + (t : ℝ))))) 0 0).slope =
      some (-3 / 100) ∧
    (trend (List.map (fun i : ℕ => (1979 + i : ℝ)) (List.range 42))
        (GridField.mk (List.map (fun i : ℕ => (i : ℤ)) (List.range 42)) [0] [0]
          (fun t _ _ => some (5 + (-3 / 100) * (1979 + (t : ℝ))))) 0 0).intercept =
      some 5 ∧
    (trend (List.map (fun i : ℕ => (1979 + i : ℝ)) (List.range 42))
        (GridField.mk (List.map (fun i : ℕ => (i : ℤ)) (List.range 42)) [0] [0]
          (fun t _ _ => some (5 + (-3 / 100) * (1979 + (t : ℝ))))) 0 0).rvalue =
      some (-1) ∧
    (trend (List.map (fun i : ℕ => (1979 + i : ℝ)) (List.range 42))
        (GridField.mk (List.map (fun i : ℕ => (i : ℤ)) (List.range 42)) [0] [0]
          (fun t _ _ => some (5 + (-3 / 100) * (1979 + (t : ℝ))))) 0 0).stderr =
      some 0 ∧
    ∃ p,
      (trend (List.map (fun i : ℕ => (1979 + i : ℝ)) (List.range 42))
          (GridField.mk (List.map (fun i : ℕ => (i : ℤ)) (List.range 42)) [0] [0]
            (fun t _ _ => some (5 + (-3 / 100) * (1979 + (t : ℝ))))) 0 0).pvalue =
        some p ∧ p < 1 / 100 := by
  obtain ⟨h1, h2, h3, h4, h5, h6⟩ := trend_linear_recovery
    (List.map (fun i : ℕ => (1979 + i : ℝ)) (List.range 42))
    (GridField.mk (List.map (fun i : ℕ => (i : ℤ)) (List.range 42)) [0] [0]
      (fun t _ _ => some (5 + (-3 / 100) * (1979 + (t : ℝ))))) 0 0 5 (-3 / 100)
    (by
      simp only [seriesAt, List.map_map]
      apply List.map_congr_left
      intro i _
      simp only [Function.comp_apply]
      congr 1 <;> (push_cast; try ring))
    ⟨1979, List.mem_map.2 ⟨0, List.mem_range.2 (by norm_num), by norm_num⟩,
     1980, List.mem_map.2 ⟨1, List.mem_range.2 (by norm_num), by norm_num⟩,
     by norm_num⟩
  exact ⟨h1, h2, h3 (by norm_num), h5 (by norm_num) (by simp), h6 (by norm_num) (by simp)⟩

/-- Counterexample for C6 as stated: on the exactly linear series with the
negative slope -0.03 per year the estimator returns correlation exactly -1,
a negative number, not a value near 1.0. -/
theorem trend_linear_counterexample :
    (trend (List.map (fun i : ℕ => (i : ℝ)) (List.range 3))
        (GridField.mk (List.map (fun i : ℕ => (i : ℤ)) (List.range 3)) [0] [0]
          (fun t _ _ => some ((-3 / 100) * (t : ℝ)))) 0 0).rvalue = some (-1) ∧
    ((-1 : ℝ) < 0) := by
  constructor
  · have hser : seriesAt
        (GridField.mk (List.map (fun i : ℕ => (i : ℤ)) (List.range 3)) [0] [0]
          (fun t _ _ => some ((-3 / 100) * (t : ℝ)))) 0 0 =
        ((List.map (fun i : ℕ => (i : ℝ)) (List.range 3)).map
          (fun x => 0 + (-3 / 100) * x)).map some := by
      simp only [seriesAt, List.map_map]
      apply List.map_congr_left
      intro i _
      simp only [Function.comp_apply]
      congr 1 <;> (push_cast; try ring)
    rw [trend, hser, linregressNaN_valid]
    simp only [TrendResult.ofResult, linregress]
    rw [rOf_affine _ 0 (-3 / 100)
      ⟨0, List.mem_map.2 ⟨0, List.mem_range.2 (by norm_num), by norm_num⟩,
       1, List.mem_map.2 ⟨1, List.mem_range.2 (by norm_num), by norm_num⟩,
       by norm_num⟩
      (by norm_num)]
    have habs : |(-3 / 100 : ℝ)| = 3 / 100 := by
      rw [abs_of_neg (by norm_num : (-3 / 100 : ℝ) < 0)]
      norm_num
    rw [habs]
    norm_num
  · norm_num

/-- C8 counterexample: running the notebook's assignment loop on an annual
DataArray with no attached coordinates does not leave it unchanged — the
object is mutated in place, gaining the five trend coordinate arrays. -/
theorem assignTrendLoop_mutates :
    assignTrendLoop [0, 1]
        (DataArrayState.mk (GridField.mk [0, 1] [0] [0] (fun _ _ _ => some (1 : ℝ))) []) ≠
      DataArrayState.mk (GridField.mk [0, 1] [0] [0] (fun _ _ _ => some (1 : ℝ))) [] := by
  intro hcon
  have hlen := congrArg (fun d => d.coords.length) hcon
  simp [assignTrendLoop, trendNames, trendArrays] at hlen

/-- C8 (amended): the assignment loop preserves the annual field's data
values and its pre-existing coordinates, and appends exactly the five named
trend output arrays as new coordinates of the same DataArray — an in-place
mutation of the coordinate set, not of the data; the trend computation
itself only reads the field. -/
theorem assignTrendLoop_spec (xs : List ℝ) (d : DataArrayState) :
    (assignTrendLoop xs d).main = d.main ∧
    (assignTrendLoop xs d).coords = d.coords ++ trendNames.zip (trendArrays xs d.main) := by
  constructor <;> simp [assignTrendLoop, trendNames, trendArrays]

/-- C3: the Area-Weighted Spatial Averager reduces the spatial axes to one
scalar per time step with per-latitude weights normalized over the included
(non-missing) cells — missing cells enter neither the numerator nor the
weight-sum denominator, and the normalized weights of the included cells sum
to 1 — and an input holding one constant value `c` at every non-missing cell
averages to exactly `c`, for any latitude weighting. -/
theorem spatial_average_const {α : Type} [Field α] [DecidableEq α] (w : ℚ → α)
    (f : GridField α) (t : ℤ) (c : α)
    (hc : ∀ la lo v, la ∈ f.lats → lo ∈ f.lons → f.value t la lo = some v → v = c)
    (hW : weightSum w f t ≠ 0) :
    spatial_average w f t = some c ∧
      ((includedCells f t).map (fun p => w p.1 / weightSum w f t)).sum = 1 := by
  have hmem : ∀ p ∈ includedCells f t, p.2 = c := by
    intro p hp
    rcases List.mem_filterMap.1 hp with ⟨cell, hcell, hval⟩
    rcases Option.map_eq_some'.1 hval with ⟨v, hv, hpv⟩
    rcases List.mem_flatMap.1 hcell with ⟨la, hla, hmem2⟩
    rcases List.mem_map.1 hmem2 with ⟨lo, hlo, hcl⟩
    subst hcl
    rw [← hpv]
    exact hc la lo v hla hlo hv
  have hnum : ((includedCells f t).map (fun p => w p.1 * p.2)).sum = weightSum w f t * c := by
    rw [List.map_congr_left (fun p hp => by rw [hmem p hp])]
    rw [sum_map_mul_const (includedCells f t) (fun p => w p.1) c, weightSum]
  constructor
  · rw [spatial_average, if_neg hW, hnum, mul_comm, mul_div_assoc, div_self hW, mul_one]
  · rw [sum_map_div_const (includedCells f t) (fun p => w p.1) (weightSum w f t)]
    exact div_self hW

/-- Witness for C3: a two-latitude step with one missing cell and constant
value 3 elsewhere averages to exactly 3, with normalized weights summing
to 1. -/
theorem spatial_average_const_witness :
    spatial_average (fun la => la + 1)
        (GridField.mk [5] [0, 1] [0] (fun _ la _ => if la = 0 then some (3 : ℚ) else none)) 5 =
      some 3 ∧
    ((includedCells
          (GridField.mk [5] [0, 1] [0] (fun _ la _ => if la = 0 then some (3 : ℚ) else none))
          5).map
        (fun p => (p.1 + 1) /
          weightSum (fun la => la + 1)
            (GridField.mk [5] [0, 1] [0] (fun _ la _ => if la = 0 then some (3 : ℚ) else none))
            5)).sum = 1 := by
  have h := spatial_average_const (fun la => la + 1)
    (GridField.mk [5] [0, 1] [0] (fun _ la _ => if la = 0 then some (3 : ℚ) else none)) 5 3
    (by
      intro la lo v hla hlo hv
      fin_cases hla <;> simp_all)
    (by simp [weightSum, includedCells, cellsOf])
  exact h

/-- C9: for every positive byte count below `1024 ^ 9`, `convert_size`
returns a defined result whose value is the count divided by `1024 ^ i`
rounded to two decimals, paired with the `i`-th unit name, where `i` is the
floor of the base-1024 logarithm; the result is defined exactly for inputs
below `1024 ^ 9` (the nine-element unit tuple is indexed in bounds), and the
zero count maps to the literal `"0B"` representation. -/
theorem convert_size_spec (n : ℕ) (h0 : 0 < n) :
    ((convert_size n).isSome ↔ n < 1024 ^ 9) ∧
    (n < 1024 ^ 9 →
      convert_size n =
        some (SizeRepr.sized (round2 ((n : ℚ) / 1024 ^ Nat.log 1024 n))
          (size_name.getD (Nat.log 1024 n) ""))) ∧
    convert_size 0 = some SizeRepr.zero := by
  have hne : n ≠ 0 := h0.ne'
  have hiff : n < 1024 ^ 9 ↔ Nat.log 1024 n < 9 :=
    Nat.lt_pow_iff_log_lt (by norm_num) hne
  have hlen : size_name.length = 9 := rfl
  refine ⟨?_, ?_, rfl⟩
  · rw [convert_size, if_neg hne]
    by_cases h : Nat.log 1024 n < 9
    · rw [dif_pos (hlen ▸ h)]
      exact ⟨fun _ => hiff.2 h, fun _ => rfl⟩
    · rw [dif_neg (fun hcon => h (hlen ▸ hcon))]
      refine ⟨fun hfalse => ?_, fun h9 => absurd (hiff.1 h9) h⟩
      simp at hfalse
  · intro h9
    have hlt : Nat.log 1024 n < 9 := hiff.1 h9
    have hb : Nat.log 1024 n < size_name.length := hlen ▸ hlt
    rw [convert_size, if_neg hne, dif_pos hb, List.getD_eq_getElem size_name "" hb]
    simp [List.get_eq_getElem]

/-- Witness for C9: 1500000 bytes lies in the MB range (`log_1024 = 2`) and
formats as 1.43 MB; zero formats as the `"0B"` token. -/
theorem convert_size_spec_witness :
    convert_size 1500000 = some (SizeRepr.sized (143 / 100) "MB") ∧
    convert_size 0 = some SizeRepr.zero := by
  obtain ⟨h1, h2, h3⟩ := convert_size_spec 1500000 (by norm_num)
  refine ⟨?_, h3⟩
  have hlog : Nat.log 1024 1500000 = 2 :=
    Nat.log_eq_of_pow_le_of_lt_pow (by norm_num) (by norm_num)
  rw [h2 (by norm_num), hlog]
  have hq : (((1500000 : ℕ) : ℚ) / 1024 ^ 2) = 46875 / 32768 := by norm_num
  have hfloor : (⌊(46875 : ℚ) / 32768 * 100⌋ : ℤ) = 143 := by
    rw [Int.floor_eq_iff]
    norm_num
  rw [hq, round2, roundHalfEven, hfloor]
  norm_num [size_name, List.getD]

/-- C10: for longitude-axis values in `[0, 360)` and window bounds
`lonmin < 0 < lonmax`, the wrap-around mask
`(longitude > 360 + lonmin) | (longitude < lonmax)` retains a cell exactly
when its longitude lies in `[0, lonmax) ∪ (360 + lonmin, 360)`; retained
cells keep their values under `where` and all other cells become missing;
for `lonmin = -10`, `lonmax = 15` the retained longitudes are exactly those
below 15 or above 350. -/
theorem lonMask_window {α : Type} (f : GridField α) (lonmin lonmax lon la : ℚ) (t : ℤ)
    (hmin : lonmin < 0) (hmax : 0 < lonmax) (h0 : 0 ≤ lon) (h360 : lon < 360) :
    (lonMask lonmin lonmax lon = true ↔
      ((0 ≤ lon ∧ lon < lonmax) ∨ (360 + lonmin < lon ∧ lon < 360))) ∧
    (lonMask lonmin lonmax lon = true →
      (whereLon lonmin lonmax f).value t la lon = f.value t la lon) ∧
    (lonMask lonmin lonmax lon = false →
      (whereLon lonmin lonmax f).value t la lon = none) ∧
    (lonMask (-10) 15 lon = true ↔ (lon < 15 ∨ 350 < lon)) := by
  refine ⟨?_, ?_, ?_, ?_⟩
  · simp only [lonMask, Bool.or_eq_true, decide_eq_true_eq]
    constructor
    · rintro (h | h)
      · exact Or.inr ⟨h, h360⟩
      · exact Or.inl ⟨h0, h⟩
    · rintro (⟨_, h⟩ | ⟨h, _⟩)
      · exact Or.inr h
      · exact Or.inl h
  · intro h
    simp [whereLon, h]
  · intro h
    simp [whereLon, h]
  · simp only [lonMask, Bool.or_eq_true, decide_eq_true_eq]
    constructor
    · rintro (h | h)
      · right; linarith
      · left; exact h
    · rintro (h | h)
      · exact Or.inr h
      · left; linarith

/-- Witness for C10: longitude 352 is retained by the France window and
keeps its value; longitude 20 is masked to missing. -/
theorem lonMask_window_witness :
    lonMask (-10) 15 352 = true ∧
    (whereLon (-10) 15
        (GridField.mk [0] [0] [352] (fun _ _ _ => some (7 : ℚ)))).value 0 0 352 = some 7 ∧
    (whereLon (-10) 15
        (GridField.mk [0] [0] [20] (fun _ _ _ => some (7 : ℚ)))).value 0 0 20 = none := by
  have h := lonMask_window
    (GridField.mk [0] [0] [352] (fun _ _ _ => some (7 : ℚ))) (-10) 15 352 0 0
    (by norm_num) (by norm_num) (by norm_num) (by norm_num)
  have h2 := lonMask_window
    (GridField.mk [0] [0] [20] (fun _ _ _ => some (7 : ℚ))) (-10) 15 20 0 0
    (by norm_num) (by norm_num) (by norm_num) (by norm_num)
  have hm : lonMask (-10) 15 352 = true := by
    simp only [lonMask, Bool.or_eq_true, decide_eq_true_eq]
    left
    norm_num
  have hm2 : lonMask (-10) 15 20 = false := by
    simp only [lonMask, Bool.or_eq_false_iff, decide_eq_false_iff_not]
    constructor <;> norm_num
  exact ⟨hm, by rw [h.2.1 hm], h2.2.2.1 hm2⟩

end ERCA
